import Mathlib

/-!
Verification development for the `path2md` tool (package module `path2md/cli.py`,
version 0.4.0, which supersedes the single-file `path2md.py`).

Modelling conventions (shallow embedding):
  * A Python `str` is modelled as `List Char`; `chars` converts a Lean string
    literal to that representation.
  * File-system paths are modelled as lists of path components relative to the
    traversal root (`os.path.abspath` normalises the root in `main`, so the
    depth arithmetic `root.count(os.sep) - start_depth` equals the length of
    the relative component list).
  * A gitignore matcher (produced by the external gitignore matching library,
    which is out of scope per the spec) is an opaque predicate on paths;
    `parse` is the oracle standing for parsing a pattern file at a given path.
  * Fallible operations are modelled with `Except`/`Option`:
    `FileEnt.statSize = none` models `os.path.getsize` raising `OSError`,
    `FileEnt.bytes = none` models `open(file, 'rb')`/`read` raising, and
    `RFile.text = Except.error e` models `open(file, 'r').read()` raising an
    exception whose message is `e`.
  * The thresholds `truncln`/`truncstr` are modelled as natural numbers: the
    pipeline guards them with Python truthiness (`if truncln:`), so `0` means
    "off"; negative thresholds are outside the behaviour the claims describe.
    `maxlnspace` keeps the full `int` range since it is guarded only by
    `is not None`.
-/

/-- Convert a Lean string literal to the `List Char` model of a Python `str`. -/
def chars (s : String) : List Char := s.toList

/-- The backquote character (code point 96). -/
def backquote : Char := Char.ofNat 96

/-- Characters Python's `str.strip()` removes (ASCII whitespace). -/
def pyIsSpace (c : Char) : Bool := [' ', '\t', '\n', '\r', '\x0b', '\x0c'].contains c

/-- Model of Python `str.strip()`: drop leading and trailing whitespace. -/
def pyStrip (l : List Char) : List Char :=
  ((l.dropWhile pyIsSpace).reverse.dropWhile pyIsSpace).reverse

/-- Line-boundary characters recognised by Python `str.splitlines`. -/
def isLineBoundary (c : Char) : Bool :=
  ['\n', '\r', '\x0b', '\x0c', '\x1c', '\x1d', '\x1e', '\x85', '\u2028', '\u2029'].contains c

/-- Worker for `pySplitlines`; `acc` holds the current line reversed. -/
def splitlinesGo (acc : List Char) : List Char → List (List Char)
  | [] => if acc.isEmpty then [] else [acc.reverse]
  | '\r' :: '\n' :: rest => acc.reverse :: splitlinesGo [] rest
  | '\r' :: rest => acc.reverse :: splitlinesGo [] rest
  | c :: rest =>
    if isLineBoundary c then acc.reverse :: splitlinesGo [] rest
    else splitlinesGo (c :: acc) rest

/-- Model of Python `str.splitlines()` (terminators are consumed, `\r\n` counts
as one boundary, a trailing terminator produces no trailing empty line). -/
def pySplitlines (content : List Char) : List (List Char) := splitlinesGo [] content

/-- Extension of a base name, after `os.path.splitext(name)[1][1:]`: the suffix
after the last dot, empty when every character before that dot is itself a dot
(CPython skips leading dots of the base name), without the dot. -/
def fileExt (name : List Char) : List Char :=
  match name.reverse.findIdx? (fun c => c = '.') with
  | none => []
  | some rj =>
    let i := name.length - 1 - rj
    if (name.take i).all (fun c => c = '.') then [] else name.drop (i + 1)

/-! ## Traversal and admission model (`list_files` and helpers, cli.py) -/

/-- An ignore matcher: a predicate on paths, as produced by the external
gitignore matching library. Opaque to this development. -/
abbrev Matcher := List String → Bool

/-- A directory entry that is a file, together with the outcomes of the two
fallible observations `list_files` makes of it: `statSize` is the result of
`os.path.getsize` (`none` = the call raises), `bytes` the raw byte content as
read by `open(-, 'rb')` (`none` = opening/reading raises). -/
structure FileEnt where
  name : String
  statSize : Option Nat
  bytes : Option (List Nat)

mutual
/-- A directory tree: the files and subdirectories `os.walk` reports for one
directory, in the order the file system lists them. -/
inductive FSTree : Type where
  | node (files : List FileEnt) (dirs : FSForest) : FSTree

/-- The named subdirectories of a directory, in listing order. -/
inductive FSForest : Type where
  | fnil : FSForest
  | fcons (dname : String) (tree : FSTree) (rest : FSForest) : FSForest
end

/-- Configuration of `list_files` (all parameters except the matcher oracle
and the optional global matcher). -/
structure WalkCfg where
  extensions : Option (List String)
  maxDepth : Option Nat
  omitDirs : List String
  whitelistFiles : List String
  whitelistDirs : List String
  whitelist : List String
  obeyGitignores : Bool
  maxSize : Nat

/-- Model of `is_binary_file`: read the first 1024 bytes; binary iff they
contain a NUL byte; a failed read counts as binary. -/
def is_binary_file (f : FileEnt) : Bool :=
  match f.bytes with
  | none => true
  | some bs => (bs.take 1024).contains 0

/-- Relative path string of a file, after `os.path.relpath(file_path, directory)`. -/
def relPathStr (rel : List String) (n : String) : String :=
  String.intercalate "/" (rel ++ [n])

/-- Apply the active matcher to a path, `false` when no matcher is active. -/
def matchOpt (cur : Option Matcher) (p : List String) : Bool :=
  match cur with
  | some m => m p
  | none => false

/-- Per-file admission decision of the `for file in files` loop of
`list_files` (cli.py lines 235-261): whitelist-files gate, combined-whitelist
gate, active-matcher gate, size gate (where a failing `os.path.getsize`
raises, modelled by `Except.error ()`), binary gate, extension gate. -/
def admitFile (cfg : WalkCfg) (cur : Option Matcher) (rel : List String) (f : FileEnt) :
    Except Unit Bool :=
  if !cfg.whitelistFiles.isEmpty && !cfg.whitelistFiles.contains f.name then Except.ok false
  else if !cfg.whitelist.isEmpty && !cfg.whitelist.contains (relPathStr rel f.name)
      && !cfg.whitelist.contains f.name then Except.ok false
  else if matchOpt cur (rel ++ [f.name]) then Except.ok false
  else
    match f.statSize with
    | none => Except.error ()
    | some sz =>
      if sz > cfg.maxSize then Except.ok false
      else if is_binary_file f then Except.ok false
      else
        match cfg.extensions with
        | some exts => Except.ok (exts.contains (fileExt f.name.toList).asString)
        | none => Except.ok true

/-- The whole file loop of one `os.walk` iteration: paths of admitted files in
listing order, or the propagated exception. -/
def admitFiles (cfg : WalkCfg) (cur : Option Matcher) (rel : List String) :
    List FileEnt → Except Unit (List (List String))
  | [] => Except.ok []
  | f :: fs =>
    match admitFile cfg cur rel f with
    | Except.error e => Except.error e
    | Except.ok b =>
      match admitFiles cfg cur rel fs with
      | Except.error e => Except.error e
      | Except.ok rest => Except.ok (if b then (rel ++ [f.name]) :: rest else rest)

/-- Directory filtering by whitelists/omit list (cli.py lines 221-229). -/
def dirIncluded (cfg : WalkCfg) (d : String) : Bool :=
  if !cfg.whitelistDirs.isEmpty then cfg.whitelistDirs.contains d
  else if !cfg.whitelist.isEmpty then cfg.whitelist.contains d
  else !cfg.omitDirs.contains d

/-- Full directory filter: name-based inclusion and the active matcher
(cli.py lines 221-233). -/
def dirKeep (cfg : WalkCfg) (cur : Option Matcher) (rel : List String) (d : String) : Bool :=
  dirIncluded cfg d && !matchOpt cur (rel ++ [d])

/-- Depth guard of `list_files` (cli.py lines 203-207): prune when
`current_depth >= max_depth`, where `current_depth` is the component count of
the path relative to the root. -/
def depthPruned (cfg : WalkCfg) (rel : List String) : Bool :=
  match cfg.maxDepth with
  | some n => decide (n ≤ rel.length)
  | none => false

/-- Presence test of `load_gitignore`: `os.path.exists(root/'.gitignore')`. -/
def hasGitignoreFile (files : List FileEnt) : Bool :=
  files.any (fun f => f.name == ".gitignore")

mutual
/-- Model of `list_files` restricted to the subtree rooted at `rel`: one
`os.walk(topdown)` iteration followed by the walks of the surviving children.
The loop body pushes the local `.gitignore` matcher (when `obey_gitignores`),
uses the top of the stack as the active matcher, and pops back to the
pre-iteration stack length at the end of the body — which runs before `os.walk`
resumes into the children, so the children are walked with the incoming
`stack`, not with `stack2`. -/
def walkDir (cfg : WalkCfg) (parse : List String → Matcher) (stack : List Matcher)
    (rel : List String) : FSTree → Except Unit (List (List String))
  | FSTree.node files dirs =>
    if depthPruned cfg rel then Except.ok []
    else
      let stack2 := if cfg.obeyGitignores && hasGitignoreFile files then
        stack ++ [parse (rel ++ [".gitignore"])] else stack
      let cur := stack2.getLast?
      match admitFiles cfg cur rel files with
      | Except.error e => Except.error e
      | Except.ok mine =>
        match walkDirs cfg parse stack cur rel dirs with
        | Except.error e => Except.error e
        | Except.ok subs => Except.ok (mine ++ subs)

/-- Walk the children of a directory in order; `cur` is the parent's active
matcher (used only for pruning), `stack` the matcher stack as restored at the
end of the parent's loop body. -/
def walkDirs (cfg : WalkCfg) (parse : List String → Matcher) (stack : List Matcher)
    (cur : Option Matcher) (rel : List String) : FSForest → Except Unit (List (List String))
  | FSForest.fnil => Except.ok []
  | FSForest.fcons d sub rest =>
    match (if dirKeep cfg cur rel d then walkDir cfg parse stack (rel ++ [d]) sub
           else Except.ok []) with
    | Except.error e => Except.error e
    | Except.ok a =>
      match walkDirs cfg parse stack cur rel rest with
      | Except.error e => Except.error e
      | Except.ok b => Except.ok (a ++ b)
end

/-- Model of `list_files` (cli.py lines 168-268): seed the matcher stack with
the global matcher if one was provided, then walk from the root. -/
def list_files (cfg : WalkCfg) (parse : List String → Matcher) (globalMatcher : Option Matcher)
    (t : FSTree) : Except Unit (List (List String)) :=
  walkDir cfg parse (match globalMatcher with | some m => [m] | none => []) [] t

mutual
/-- Reference traversal for the amended scoping semantics: no matcher stack at
all — in each directory the active matcher is that directory's own `.gitignore`
matcher when `obey_gitignores` is set and the file is present, and otherwise
the global matcher `g`; a directory's local matcher is never visible anywhere
else (children again receive only `g`). -/
def walkLocalDir (cfg : WalkCfg) (parse : List String → Matcher) (g : Option Matcher)
    (rel : List String) : FSTree → Except Unit (List (List String))
  | FSTree.node files dirs =>
    if depthPruned cfg rel then Except.ok []
    else
      let cur := if cfg.obeyGitignores && hasGitignoreFile files then
        some (parse (rel ++ [".gitignore"])) else g
      match admitFiles cfg cur rel files with
      | Except.error e => Except.error e
      | Except.ok mine =>
        match walkLocalDirs cfg parse g cur rel dirs with
        | Except.error e => Except.error e
        | Except.ok subs => Except.ok (mine ++ subs)

/-- Children walk of the stack-free reference traversal. -/
def walkLocalDirs (cfg : WalkCfg) (parse : List String → Matcher) (g : Option Matcher)
    (cur : Option Matcher) (rel : List String) : FSForest → Except Unit (List (List String))
  | FSForest.fnil => Except.ok []
  | FSForest.fcons d sub rest =>
    match (if dirKeep cfg cur rel d then walkLocalDir cfg parse g (rel ++ [d]) sub
           else Except.ok []) with
    | Except.error e => Except.error e
    | Except.ok a =>
      match walkLocalDirs cfg parse g cur rel rest with
      | Except.error e => Except.error e
      | Except.ok b => Except.ok (a ++ b)
end

/-- Stack-free reference version of `list_files` under the amended scoping
semantics (each directory filtered by its own ignore file, else the global
matcher; no inheritance into subtrees). -/
def list_files_local (cfg : WalkCfg) (parse : List String → Matcher)
    (globalMatcher : Option Matcher) (t : FSTree) : Except Unit (List (List String)) :=
  walkLocalDir cfg parse globalMatcher [] t

/-! ## Content transforms (`remove_comments`, `truncate_strings`,
`truncate_line`, `limit_consecutive_empty_lines`) -/

/-- Model of `re.sub(r'#.*', '', content)`: each `#` removes the rest of its
line (the newline survives since `.` does not match it). -/
def stripHashComments : List Char → List Char
  | [] => []
  | c :: rest =>
    if c = '#' then stripHashComments (rest.dropWhile (fun x => x ≠ '\n'))
    else c :: stripHashComments rest
termination_by l => l.length
decreasing_by
  · have h : (rest.dropWhile (fun x => x ≠ '\n')).length ≤ rest.length :=
      (List.dropWhile_sublist _).length_le
    simp only [List.length_cons]
    omega
  · simp

/-- Model of `re.sub(r'//.*', '', content)`. -/
def stripSlashComments : List Char → List Char
  | [] => []
  | '/' :: '/' :: rest => stripSlashComments (rest.dropWhile (fun x => x ≠ '\n'))
  | c :: rest => c :: stripSlashComments rest
termination_by l => l.length
decreasing_by
  · have h : (rest.dropWhile (fun x => x ≠ '\n')).length ≤ rest.length :=
      (List.dropWhile_sublist _).length_le
    simp only [List.length_cons]
    omega
  · simp

/-- Index of the first occurrence of `*/`. -/
def findCloseIdx : List Char → Option Nat
  | [] => none
  | '*' :: '/' :: _ => some 0
  | _ :: rest => (findCloseIdx rest).map (· + 1)

/-- Model of `re.sub(r'/\*.*?\*/', '', content, flags=re.DOTALL)`: each `/*`
is removed together with everything up to the nearest `*/`; a `/*` with no
later `*/` matches nothing. -/
def stripBlockComments : List Char → List Char
  | [] => []
  | '/' :: '*' :: rest =>
    (match findCloseIdx rest with
     | some j => stripBlockComments (rest.drop (j + 2))
     | none => '/' :: '*' :: rest)
  | c :: rest => c :: stripBlockComments rest
termination_by l => l.length
decreasing_by
  · have h : (rest.drop (j + 2)).length ≤ rest.length := by
      rw [List.length_drop]; omega
    simp only [List.length_cons]
    omega
  · simp

/-- Model of `remove_comments`. -/
def remove_comments (content : List Char) (extension : List Char) : List Char :=
  if extension = chars "py" then stripHashComments content
  else if [chars "js", chars "ts", chars "mjs", chars "tsx", chars "css",
      chars "html"].contains extension then
    stripBlockComments (stripSlashComments content)
  else content

/-- Whether the matched literal opens with a triple quote, after
`string.startswith("'''") or string.startswith('\x22\x22\x22')`. -/
def tripleQuoted (s : List Char) : Bool :=
  ['\'', '\'', '\''].isPrefixOf s || ['"', '"', '"'].isPrefixOf s

/-- Model of the inner `truncate_match` of `truncate_strings`: a matched
literal longer than the threshold keeps its first `truncstr` characters, then
the marker, then `string[:3]` for a triple-quoted literal and `string[-1]`
otherwise; anything not longer is returned unchanged. -/
def truncate_match (truncstr : Nat) (s : List Char) : List Char :=
  if truncstr < s.length then
    if tripleQuoted s then s.take truncstr ++ chars "... (String truncated) " ++ s.take 3
    else s.take truncstr ++ chars "... (String truncated)" ++ [(s.getLast?).getD ' ']
  else s

/-- Model of `re.sub` for the single-character-quote patterns
`q[^q]*q`: leftmost non-overlapping matches, each replaced through
`truncate_match`. -/
def subQuote (q : Char) (n : Nat) : List Char → List Char
  | [] => []
  | c :: rest =>
    if c = q then
      match rest.findIdx? (fun x => x = q) with
      | some j => truncate_match n (c :: (rest.take j ++ [q])) ++ subQuote q n (rest.drop (j + 1))
      | none => c :: rest
    else c :: subQuote q n rest
termination_by l => l.length
decreasing_by
  · have h : (rest.drop (j + 1)).length ≤ rest.length := by
      rw [List.length_drop]; omega
    simp only [List.length_cons]
    omega
  · simp

/-- Index of the first occurrence of `qqq`. -/
def findTripleIdx (q : Char) : List Char → Option Nat
  | [] => none
  | c :: rest =>
    if c = q ∧ rest.take 2 = [q, q] then some 0
    else (findTripleIdx q rest).map (· + 1)

/-- Model of `re.sub` for the lazy triple-quote patterns `qqq(.*?)qqq` with
DOTALL: each opening `qqq` matches up to the nearest closing `qqq`; when no
closing triple exists, nothing later can match either. -/
def subTriple (q : Char) (n : Nat) : List Char → List Char
  | [] => []
  | c :: rest =>
    if c = q ∧ rest.take 2 = [q, q] then
      match findTripleIdx q (rest.drop 2) with
      | some j =>
        truncate_match n (c :: (rest.take 2 ++ ((rest.drop 2).take j ++ [q, q, q])))
          ++ subTriple q n ((rest.drop 2).drop (j + 3))
      | none => c :: rest
    else c :: subTriple q n rest
termination_by l => l.length
decreasing_by
  · have h : ((rest.drop 2).drop (j + 3)).length ≤ rest.length := by
      rw [List.length_drop, List.length_drop]; omega
    simp only [List.length_cons]
    omega
  · simp

/-- Model of `truncate_strings`: the five patterns applied in source order
(single quote, double quote, triple single, triple double, backquote). -/
def truncate_strings (content : List Char) (truncstr : Nat) : List Char :=
  subQuote backquote truncstr
    (subTriple '"' truncstr
      (subTriple '\'' truncstr
        (subQuote '"' truncstr
          (subQuote '\'' truncstr content))))

/-- The quote characters `truncate_line` tests for. -/
def quoteChars : List Char := ['\'', '"', backquote]

/-- Model of `truncate_line` for a positive threshold (the pipeline only calls
it under `if truncln:`, so `truncln >= 1`; Python's negative indexing at
`truncln = 0` is outside the modelled range). Note the guard inspects
`line[truncln - 1]`, the last kept character. -/
def truncate_line (line : List Char) (truncln : Nat) : List Char :=
  if line.length ≤ truncln then line
  else if quoteChars.contains (line.getD (truncln - 1) ' ') then
    line.take truncln ++ chars " // (Line truncated to save space)"
  else
    line.take truncln ++ chars " // (Line truncated to save space)"
      ++ [(line.getLast?).getD ' ']

/-- Blank test of `limit_consecutive_empty_lines`: `line.strip() == ""`. -/
def isBlankLine (l : List Char) : Bool := (pyStrip l).isEmpty

/-- The line filter of `limit_consecutive_empty_lines`: count consecutive
blank lines, keep a line while the count stays at or below the threshold. -/
def limitAux (m : Int) : Nat → List (List Char) → List (List Char)
  | _, [] => []
  | cnt, l :: ls =>
    let cnt2 := if isBlankLine l then cnt + 1 else 0
    if (cnt2 : Int) ≤ m then l :: limitAux m cnt2 ls else limitAux m cnt2 ls

/-- Model of `limit_consecutive_empty_lines` (a no-op when the threshold is
`None`; otherwise filter the split lines and re-join with newlines). -/
def limit_consecutive_empty_lines (content : List Char) (maxlnspace : Option Int) : List Char :=
  match maxlnspace with
  | none => content
  | some m => List.intercalate ['\n'] (limitAux m 0 (pySplitlines content))

/-! ## Rendering and writing (`read_and_fence`, `concatenate_markdown`,
`sanitize_filename`, `write_to_file`) -/

/-- A file as seen by `read_and_fence`: its path relative to the base
directory, its base name, and the outcome of reading it as UTF-8 text. -/
structure RFile where
  relPath : List Char
  name : List Char
  text : Except (List Char) (List Char)

/-- The rendering part of the configuration (the last six parameters of
`read_and_fence`). -/
structure RenderCfg where
  omitExtensions : List (List Char)
  omitFiles : List (List Char)
  truncln : Option Nat
  truncstr : Option Nat
  nocom : Bool
  maxlnspace : Option Int

/-- Model of `read_and_fence`: omission placeholder for omitted
extensions/names; otherwise read the text, run the transform pipeline
(comments, strings, lines, blank lines — each stage under its Python
truthiness guard), and wrap in a labelled fence; a read failure becomes an
inline error placeholder. -/
def read_and_fence (cfg : RenderCfg) (f : RFile) : List Char :=
  let extension := fileExt f.name
  if cfg.omitExtensions.contains extension || cfg.omitFiles.contains f.name then
    chars "**" ++ f.relPath ++ chars "** (Source omitted to save space)\n"
  else
    match f.text with
    | Except.error e =>
      chars "**" ++ f.relPath ++ chars "** (Error reading file: " ++ e ++ chars ")\n"
    | Except.ok content0 =>
      let c1 := if cfg.nocom then remove_comments content0 extension else content0
      let c2 := match cfg.truncstr with
        | some n => if n = 0 then c1 else truncate_strings c1 n
        | none => c1
      let c3 := match cfg.truncln with
        | some n => if n = 0 then c2 else
            List.intercalate ['\n'] ((pySplitlines c2).map (fun l => truncate_line l n))
        | none => c2
      let c4 := limit_consecutive_empty_lines c3 cfg.maxlnspace
      chars "**" ++ f.relPath ++ chars "**\n```" ++ extension ++ chars "\n" ++ c4 ++ chars "\n```\n"

/-- Model of `concatenate_markdown`: the rendered units joined by newlines. -/
def concatenate_markdown (cfg : RenderCfg) (files : List RFile) : List Char :=
  List.intercalate ['\n'] (files.map (read_and_fence cfg))

/-- Model of `sanitize_filename`: replace filesystem-invalid characters by
underscores. -/
def sanitize_filename (s : List Char) : List Char :=
  s.map (fun c => if ['<', '>', ':', '"', '/', '\\', '|', '?', '*'].contains c then '_' else c)

/-- Model of `content.split('\n**')`: full split on that separator. -/
def splitOnNSS (acc : List Char) : List Char → List (List Char)
  | '\n' :: '*' :: '*' :: rest => acc.reverse :: splitOnNSS [] rest
  | c :: rest => splitOnNSS (c :: acc) rest
  | [] => [acc.reverse]

/-- Model of `chunk.split('**\n', 1)`: split at the first occurrence, `none`
when the separator is absent (Python raises `ValueError`, which the writer
catches and turns into skipping the chunk). -/
def splitOnceSSN (acc : List Char) : List Char → Option (List Char × List Char)
  | '*' :: '*' :: '\n' :: rest => some (acc.reverse, rest)
  | c :: rest => splitOnceSSN (c :: acc) rest
  | [] => none

/-- Model of the `output_dir` branch of `write_to_file`: the list of
(file name, written content) pairs it produces. Chunks that are empty after
stripping, or that contain no header separator, are skipped. -/
def write_to_dir (content : List Char) : List (List Char × List Char) :=
  (splitOnNSS [] content).filterMap (fun chunk =>
    let ch := pyStrip chunk
    if ch.isEmpty then none
    else
      match splitOnceSSN [] ch with
      | none => none
      | some (fp, body) =>
        let fp2 := pyStrip fp
        some (sanitize_filename fp2 ++ chars ".md", chars "**" ++ fp2 ++ chars "**\n" ++ body))

/-- The three output destinations of `write_to_file`. -/
inductive OutputTarget : Type where
  | toDir : OutputTarget
  | toFile : OutputTarget
  | console : OutputTarget

/-- Model of `write_to_file`, as the list of (destination, bytes) writes it
performs: per-chunk files in dir mode, the whole content in file mode, the
content plus the newline `print` appends in console mode. -/
def write_to_file (content : List Char) : OutputTarget → List (List Char × List Char)
  | OutputTarget.toDir => write_to_dir content
  | OutputTarget.toFile => [(chars "output-file", content)]
  | OutputTarget.console => [(chars "stdout", content ++ ['\n'])]

/-! ## Specification-side definitions used by the claims -/

/-- Rewrite of a lone `\r` or a `\r\n` pair into `\n`, following the words of
claim C10 ("every CR-LF or CR line terminator in the original content becomes
LF"). -/
def normalizeCRLF : List Char → List Char
  | [] => []
  | '\r' :: '\n' :: rest => '\n' :: normalizeCRLF rest
  | '\r' :: rest => '\n' :: normalizeCRLF rest
  | c :: rest => c :: normalizeCRLF rest

/-- Removal of one final trailing newline, following the words of claim C10
("any final trailing newline is removed from the transformed content"). -/
def dropTrailingNewline (l : List Char) : List Char :=
  if l.getLast? = some '\n' then l.dropLast else l

/-- Spec-side per-literal truncation, following the words of claim C8: a
literal of exactly the threshold length is untouched; a longer literal keeps
its first `truncstr` characters, then the marker, then a closing delimiter
matching its opening style — the 3-character delimiter for a triple-quoted
literal, one character of the original quote type for a single-character
quoted literal. -/
def specTruncLiteral (truncstr : Nat) (s : List Char) : List Char :=
  if s.length = truncstr then s
  else if truncstr < s.length then
    if ['\'', '\'', '\''].isPrefixOf s then
      s.take truncstr ++ chars "... (String truncated) " ++ ['\'', '\'', '\'']
    else if ['"', '"', '"'].isPrefixOf s then
      s.take truncstr ++ chars "... (String truncated) " ++ ['"', '"', '"']
    else
      s.take truncstr ++ chars "... (String truncated)" ++ [(s.head?).getD ' ']
  else s

/-- Shape of a regex match of `truncate_strings`: a triple-quoted literal
(matching opener and closer, length at least 6) or a single-character quoted
literal (same quote at both ends, length at least 2, not opening with a
triple quote). -/
def literalShape (s : List Char) : Prop :=
  (6 ≤ s.length ∧ ((['\'', '\'', '\''].isPrefixOf s ∧ ['\'', '\'', '\''].isSuffixOf s)
      ∨ (['"', '"', '"'].isPrefixOf s ∧ ['"', '"', '"'].isSuffixOf s)))
  ∨ (2 ≤ s.length ∧ tripleQuoted s = false
      ∧ ∃ q, q ∈ quoteChars ∧ s.head? = some q ∧ s.getLast? = some q)

/-! ## Concrete inputs used by witnesses and counterexamples -/

/-- A matcher oracle whose matchers match nothing. -/
def parseFalse : List String → Matcher := fun _ => fun _ => false

/-- Configuration with no filters active (the argparse defaults of cli.py,
including the 100 KB size default). -/
def cfgNoFilters : WalkCfg := ⟨none, none, [], [], [], [], false, 102400⟩

/-- Configuration with only `--obey-gitignores` active. -/
def cfgObey : WalkCfg := ⟨none, none, [], [], [], [], true, 102400⟩

/-- Matcher oracle standing for a pattern file whose patterns match exactly
the files named `x.log`. -/
def parseLog : List String → Matcher :=
  fun _ => fun p => decide ((p.getLast?).getD "" = "x.log")

/-- A readable, non-binary, small file entry. -/
def plainEnt (n : String) : FileEnt := ⟨n, some 1, some [104]⟩

/-- Tree for claim C1: a `.gitignore` lives only in subdirectory `B`, and a
file it matches (`x.log`) lives deeper, in `B/C`. -/
def tIgnoreSub : FSTree :=
  FSTree.node []
    (FSForest.fcons "B"
      (FSTree.node [plainEnt ".gitignore"]
        (FSForest.fcons "C" (FSTree.node [plainEnt "x.log"] FSForest.fnil) FSForest.fnil))
      FSForest.fnil)

/-- Tree for claim C5: the first file's `os.path.getsize` raises, a healthy
file follows it. -/
def tStatFail : FSTree :=
  FSTree.node [⟨"bad.txt", none, some []⟩, plainEnt "good.txt"] FSForest.fnil

/-- Three-level tree for the C2 witness: a file at depth 0, one at depth 1,
one at depth 2. -/
def tDepth : FSTree :=
  FSTree.node [plainEnt "r.txt"]
    (FSForest.fcons "d"
      (FSTree.node [plainEnt "x.txt"]
        (FSForest.fcons "e" (FSTree.node [plainEnt "y.txt"] FSForest.fnil) FSForest.fnil))
      FSForest.fnil)

/-- A file whose first bytes contain a NUL byte but whose extension is
whitelisted — used by the C4 witness. -/
def binEnt : FileEnt := ⟨"img.py", some 4, some [0, 1]⟩

/-- Configuration admitting only the `py` extension. -/
def cfgExtPy : WalkCfg := ⟨some ["py"], none, [], [], [], [], false, 102400⟩

/-- Rendering configuration with every transform and omission off. -/
def rcfgPlain : RenderCfg := ⟨[], [], none, none, false, none⟩

/-- Rendering configuration that omits the `py` extension. -/
def rcfgOmitPy : RenderCfg := ⟨[chars "py"], [], none, none, false, none⟩

/-- A rendered file that reads fine. -/
def okFile : RFile := ⟨chars "a.txt", chars "a.txt", Except.ok (chars "hi")⟩

/-- A rendered file whose read raises with message `boom`. -/
def errFile : RFile := ⟨chars "b.txt", chars "b.txt", Except.error (chars "boom")⟩

/-- A Python file subject to the `py` omission of `rcfgOmitPy`. -/
def omittedPy : RFile := ⟨chars "a.py", chars "a.py", Except.ok (chars "print(1)")⟩

/-! ## Helper lemmas -/

/-- Unfolding of `List.intercalate` over a cons. -/
theorem intercalate_cons_eq {α : Type} (sep a : List α) (l : List (List α)) :
    List.intercalate sep (a :: l) =
      a ++ (if l.isEmpty then [] else sep ++ List.intercalate sep l) := by
  cases l with
  | nil => simp [List.intercalate]
  | cons b t => simp [List.intercalate]

/-- Every element of a list contributes its rendering as one contiguous
segment of the intercalated document. -/
theorem intercalate_map_context {α β : Type} (sep : List β) (g : α → List β) :
    ∀ (l : List α) (a : α), a ∈ l →
      ∃ pre post, List.intercalate sep (l.map g) = pre ++ g a ++ post := by
  intro l
  induction l with
  | nil => intro a ha; cases ha
  | cons x xs ih =>
    intro a ha
    rcases List.mem_cons.mp ha with h | h
    · subst h
      refine ⟨[], if (xs.map g).isEmpty then [] else sep ++ List.intercalate sep (xs.map g), ?_⟩
      rw [List.map_cons, intercalate_cons_eq]
      simp
    · obtain ⟨pre, post, hp⟩ := ih a h
      have hxe : (xs.map g).isEmpty = false := by
        cases xs
        · cases h
        · rfl
      refine ⟨g x ++ sep ++ pre, post, ?_⟩
      rw [List.map_cons, intercalate_cons_eq, hxe]
      simp [hp]

/-! ## Claim C7: line truncation boundary and suffix rule -/

/-- Claim C7 counterexample: for the line `aaaaa'z` (7 characters) and
threshold 6, the claim prescribes appending the line's last character `z`
(which is not a quote character), but the code appends nothing because it
tests `line[truncln - 1]` — the last kept character, here a quote — rather
than the line's last character. -/
theorem c7_counterexample :
    truncate_line (chars "aaaaa'z") 6 = chars "aaaaa' // (Line truncated to save space)" ∧
    truncate_line (chars "aaaaa'z") 6 ≠ chars "aaaaa' // (Line truncated to save space)z" := by
  constructor
  · rfl
  · decide

/-- Claim C7, amended: `truncate_line` leaves a line of at most `truncln`
characters (in particular exactly `truncln`) unchanged; a longer line becomes
its first `truncln` characters plus the marker, plus the original line's last
character unless the last kept character `line[truncln - 1]` is a quote
character, in which case nothing more is appended. -/
theorem c7_truncate_line_amended (line : List Char) (n : Nat) (h : 0 < n) :
    (line.length ≤ n → truncate_line line n = line) ∧
    (n < line.length → truncate_line line n =
      line.take n ++ chars " // (Line truncated to save space)" ++
        (if quoteChars.contains (line.getD (n - 1) ' ') then []
         else [(line.getLast?).getD ' '])) := by
  constructor
  · intro hle
    rw [truncate_line, if_pos hle]
  · intro hlt
    rw [truncate_line, if_neg (by omega)]
    by_cases hq : quoteChars.contains (line.getD (n - 1) ' ') = true
    · rw [if_pos hq, if_pos hq]
      simp
    · rw [if_neg hq, if_neg hq]

/-- Witness for C7 at line `abcdefgh`, threshold 3. -/
theorem c7_truncate_line_witness :
    0 < 3 ∧ truncate_line (chars "abcdefgh") 3 =
      chars "abc" ++ chars " // (Line truncated to save space)" ++ ['h'] := by
  refine ⟨by decide, ?_⟩
  have h := (c7_truncate_line_amended (chars "abcdefgh") 3 (by decide)).2 (by decide)
  rw [h]
  decide

/-! ## Claim C8: string-literal truncation -/

/-- Prefix of length 3 determined by `isPrefixOf`. -/
theorem take_three_of_isPrefixOf (a b c : Char) (s : List Char)
    (h : [a, b, c].isPrefixOf s = true) : s.take 3 = [a, b, c] := by
  have hp : [a, b, c] <+: s := by
    rwa [List.isPrefixOf_iff_prefix] at h
  obtain ⟨t, ht⟩ := hp
  subst ht
  rfl

/-- Claim C8: every quoted-string literal processed by `truncate_strings`
(that is, every match handled by its inner `truncate_match`) is transformed
exactly as the spec words it: a literal of exactly `truncstr` characters is
untouched; a longer literal becomes its first `truncstr` characters plus the
truncation marker plus a closing delimiter matching its opening style — the
3-character delimiter for a triple-quoted literal, one character of the
original quote type (the literal's own last character) otherwise. -/
theorem c8_literal_truncation (s : List Char) (n : Nat) (h : literalShape s) :
    truncate_match n s = specTruncLiteral n s ∧ (s.length = n → truncate_match n s = s) := by
  have huntouched : s.length = n → truncate_match n s = s := by
    intro he
    rw [truncate_match, if_neg (by omega)]
  refine ⟨?_, huntouched⟩
  by_cases he : s.length = n
  · rw [huntouched he, specTruncLiteral, if_pos he]
  · by_cases hlt : n < s.length
    · rw [truncate_match, if_pos hlt, specTruncLiteral, if_neg he, if_pos hlt]
      rcases h with ⟨hlen, htrip⟩ | ⟨hlen, hnt, q, hq, hhead, hlast⟩
      · rcases htrip with ⟨hpre, _⟩ | ⟨hpre, _⟩
        · have htq : tripleQuoted s = true := by
            rw [tripleQuoted, hpre, Bool.true_or]
          rw [if_pos htq, if_pos hpre, take_three_of_isPrefixOf _ _ _ _ hpre]
        · have htq : tripleQuoted s = true := by
            rw [tripleQuoted, hpre, Bool.or_true]
          have hns : ['\'', '\'', '\''].isPrefixOf s = false := by
            by_contra hc
            rw [Bool.not_eq_false] at hc
            have h1 := take_three_of_isPrefixOf _ _ _ _ hc
            have h2 := take_three_of_isPrefixOf _ _ _ _ hpre
            rw [h1] at h2
            simp at h2
          rw [if_pos htq, if_neg (by rw [hns]; simp), if_pos hpre,
            take_three_of_isPrefixOf _ _ _ _ hpre]
      · have h3 : ¬ (['\'', '\'', '\''].isPrefixOf s = true) := by
          intro hc
          rw [tripleQuoted, hc, Bool.true_or] at hnt
          cases hnt
        have h4 : ¬ (['"', '"', '"'].isPrefixOf s = true) := by
          intro hc
          rw [tripleQuoted, hc, Bool.or_true] at hnt
          cases hnt
        rw [if_neg (by rw [hnt]; simp), if_neg h3, if_neg h4, hlast]
        have hh : s.head? = some q := hhead
        cases s with
        | nil => cases hh
        | cons c t =>
          have : c = q := by
            injection hh
          rw [this]
          rfl
    · rw [truncate_match, if_neg hlt, specTruncLiteral, if_neg he, if_neg hlt]

/-- Witness for C8 at the single-quoted literal `'abcdef'` and threshold 4. -/
theorem c8_literal_truncation_witness :
    literalShape (chars "'abcdef'") ∧
      truncate_match 4 (chars "'abcdef'") = specTruncLiteral 4 (chars "'abcdef'") ∧
      truncate_match 4 (chars "'abcdef'") =
        chars "'abc" ++ chars "... (String truncated)" ++ ['\''] := by
  have hs : literalShape (chars "'abcdef'") := by
    right
    exact ⟨by decide, by decide, '\'', by decide, by decide, by decide⟩
  refine ⟨hs, (c8_literal_truncation (chars "'abcdef'") 4 hs).1, by decide⟩

/-! ## Claim C4: binary classification and admission -/

/-- Claim C4: admission classifies a file as binary exactly when its first
1024 bytes contain a NUL byte (a failed prefix read also counts as binary);
such a file is never admitted, regardless of the configured extensions or any
other configuration; and the only admission-time outcome that is an exception
is a failing `os.path.getsize` — a failed prefix read never raises. -/
theorem c4_binary_admission (cfg : WalkCfg) (cur : Option Matcher) (rel : List String)
    (f : FileEnt) :
    (is_binary_file f = true ↔
      (f.bytes = none ∨ ((f.bytes.getD []).take 1024).contains 0 = true)) ∧
    (((f.bytes.getD []).take 1024).contains 0 = true →
      admitFile cfg cur rel f ≠ Except.ok true) ∧
    (f.bytes = none → admitFile cfg cur rel f ≠ Except.ok true) ∧
    (admitFile cfg cur rel f = Except.error () → f.statSize = none) := by
  have hbin : (f.bytes = none ∨ ((f.bytes.getD []).take 1024).contains 0 = true) →
      is_binary_file f = true := by
    intro hc
    rw [is_binary_file]
    cases hb : f.bytes with
    | none => rfl
    | some bs =>
      rcases hc with hc | hc
      · rw [hb] at hc; cases hc
      · rw [hb] at hc; exact hc
  have hnotok : is_binary_file f = true → admitFile cfg cur rel f ≠ Except.ok true := by
    intro hib hcontra
    rw [admitFile] at hcontra
    split at hcontra
    · cases hcontra
    · split at hcontra
      · cases hcontra
      · split at hcontra
        · cases hcontra
        · split at hcontra
          · cases hcontra
          · split at hcontra
            all_goals simp_all
  refine ⟨?_, ?_, ?_, ?_⟩
  · constructor
    · intro hib
      rw [is_binary_file] at hib
      cases hb : f.bytes with
      | none => exact Or.inl rfl
      | some bs =>
        rw [hb] at hib
        exact Or.inr hib
    · exact hbin
  · intro hc
    exact hnotok (hbin (Or.inr hc))
  · intro hc
    exact hnotok (hbin (Or.inl hc))
  · intro herr
    rw [admitFile] at herr
    split at herr
    · cases herr
    · split at herr
      · cases herr
      · split at herr
        · cases herr
        · split at herr
          · rename_i heq
            exact heq
          · split at herr
            · cases herr
            · split at herr
              · cases herr
              · split at herr
                · cases herr
                · cases herr

/-- Witness for C4 at a NUL-containing `.py` file under a configuration that
whitelists the `py` extension. -/
theorem c4_binary_admission_witness :
    ((binEnt.bytes.getD []).take 1024).contains 0 = true ∧
    is_binary_file binEnt = true ∧
    admitFile cfgExtPy none [] binEnt ≠ Except.ok true := by
  have h := c4_binary_admission cfgExtPy none [] binEnt
  exact ⟨by decide, h.1.mpr (Or.inr (by decide)), h.2.1 (by decide)⟩

/-! ## Claim C5: a failing stat aborts the run (code bug relative to spec) -/

/-- Claim C5 evaluation at the failing input: with a file whose
`os.path.getsize` raises (`tStatFail`), `list_files` propagates the exception
— the run aborts; the healthy file listed after it is never reached. The
claim (and spec section 7) says such a file is rejected and traversal
continues, which the code does not do. -/
theorem c5_stat_failure_fatal :
    list_files cfgNoFilters parseFalse none tStatFail = Except.error () ∧
    (∀ l, list_files cfgNoFilters parseFalse none tStatFail ≠ Except.ok l) := by
  refine ⟨rfl, ?_⟩
  intro l hc
  rw [show list_files cfgNoFilters parseFalse none tStatFail = Except.error () from rfl] at hc
  cases hc

/-! ## Claim C3: every admitted file reflected in the output -/

/-- Claim C3 counterexample: in per-directory split mode, an admitted file
whose extension is in the omit set produces an omission placeholder in the
concatenated text, but `write_to_file` writes nothing at all for it — the
placeholder chunk has no `**\n` header separator and is skipped, so the
admitted file is not reflected in the written output. -/
theorem c3_counterexample :
    concatenate_markdown rcfgOmitPy [omittedPy] =
      chars "**a.py** (Source omitted to save space)\n" ∧
    write_to_file (concatenate_markdown rcfgOmitPy [omittedPy]) OutputTarget.toDir = [] := by
  exact ⟨rfl, rfl⟩

/-- Unit produced by `read_and_fence` for an unreadable, non-omitted file. -/
theorem read_and_fence_error (cfg : RenderCfg) (f : RFile) (e : List Char)
    (htext : f.text = Except.error e)
    (hoe : cfg.omitExtensions.contains (fileExt f.name) = false)
    (hof : cfg.omitFiles.contains f.name = false) :
    read_and_fence cfg f =
      chars "**" ++ f.relPath ++ chars "** (Error reading file: " ++ e ++ chars ")\n" := by
  rw [read_and_fence]
  rw [if_neg (by rw [hoe, hof]; simp)]
  rw [htext]

/-- Claim C3, amended: in single-file and console modes the written document
is exactly the newline-join of one rendered unit per admitted file, in order;
each admitted file's unit appears contiguously in that document; and a read
failure on a non-omitted file yields an inline error placeholder unit rather
than an abort. In per-directory split mode the claim fails (see the
counterexample): placeholder units are dropped. -/
theorem c3_amended_reflection (cfg : RenderCfg) (fs : List RFile) :
    (write_to_file (concatenate_markdown cfg fs) OutputTarget.toFile =
      [(chars "output-file", List.intercalate ['\n'] (fs.map (read_and_fence cfg)))]) ∧
    (write_to_file (concatenate_markdown cfg fs) OutputTarget.console =
      [(chars "stdout", List.intercalate ['\n'] (fs.map (read_and_fence cfg)) ++ ['\n'])]) ∧
    (∀ f ∈ fs, ∃ pre post,
      concatenate_markdown cfg fs = pre ++ read_and_fence cfg f ++ post) ∧
    (∀ (f : RFile) (e : List Char), f.text = Except.error e →
      cfg.omitExtensions.contains (fileExt f.name) = false →
      cfg.omitFiles.contains f.name = false →
      read_and_fence cfg f =
        chars "**" ++ f.relPath ++ chars "** (Error reading file: " ++ e ++ chars ")\n") := by
  refine ⟨rfl, rfl, ?_, ?_⟩
  · intro f hf
    exact intercalate_map_context ['\n'] (read_and_fence cfg) fs f hf
  · intro f e htext hoe hof
    exact read_and_fence_error cfg f e htext hoe hof

/-- Witness for C3 (amended) at a two-file list whose second file fails to
read. -/
theorem c3_amended_reflection_witness :
    (∃ pre post,
      concatenate_markdown rcfgPlain [okFile, errFile] =
        pre ++ read_and_fence rcfgPlain errFile ++ post) ∧
    read_and_fence rcfgPlain errFile = chars "**b.txt** (Error reading file: boom)\n" := by
  have h := c3_amended_reflection rcfgPlain [okFile, errFile]
  refine ⟨h.2.2.1 errFile (by simp), ?_⟩
  have h4 := h.2.2.2 errFile (chars "boom") rfl rfl rfl
  rw [h4]
  rfl

/-! ## Claim C6: transform-free round trip -/

/-- Unit produced by `read_and_fence` for a readable, non-omitted file with
every transform off: the file content sits verbatim between the fence
markers. -/
theorem read_and_fence_plain (oe ofl : List (List Char)) (f : RFile) (c : List Char)
    (htext : f.text = Except.ok c)
    (hoe : oe.contains (fileExt f.name) = false)
    (hof : ofl.contains f.name = false) :
    read_and_fence ⟨oe, ofl, none, none, false, none⟩ f =
      chars "**" ++ f.relPath ++ chars "**\n```" ++ fileExt f.name ++ chars "\n"
        ++ c ++ chars "\n```\n" := by
  rw [read_and_fence]
  rw [if_neg (by rw [show RenderCfg.omitExtensions ⟨oe, ofl, none, none, false, none⟩ = oe from rfl,
    show RenderCfg.omitFiles ⟨oe, ofl, none, none, false, none⟩ = ofl from rfl, hoe, hof]; simp)]
  rw [htext]
  rfl

/-- Claim C6: with no transforms active, the content between the opening and
closing fence markers of a file's block inside the concatenated document is
character-for-character the file's original content. -/
theorem c6_roundtrip (oe ofl : List (List Char)) (fs : List RFile) (f : RFile) (c : List Char)
    (hmem : f ∈ fs) (htext : f.text = Except.ok c)
    (hoe : oe.contains (fileExt f.name) = false)
    (hof : ofl.contains f.name = false) :
    ∃ pre post,
      concatenate_markdown ⟨oe, ofl, none, none, false, none⟩ fs =
        pre ++ (chars "**" ++ f.relPath ++ chars "**\n```" ++ fileExt f.name ++ chars "\n"
          ++ c ++ chars "\n```\n") ++ post := by
  obtain ⟨pre, post, hp⟩ :=
    intercalate_map_context ['\n'] (read_and_fence ⟨oe, ofl, none, none, false, none⟩) fs f hmem
  refine ⟨pre, post, ?_⟩
  rw [concatenate_markdown, hp, read_and_fence_plain oe ofl f c htext hoe hof]

/-- Witness for C6 at a two-file list. -/
theorem c6_roundtrip_witness :
    okFile ∈ [errFile, okFile] ∧
    (∃ pre post,
      concatenate_markdown ⟨[], [], none, none, false, none⟩ [errFile, okFile] =
        pre ++ (chars "**" ++ okFile.relPath ++ chars "**\n```" ++ fileExt okFile.name
          ++ chars "\n" ++ chars "hi" ++ chars "\n```\n") ++ post) := by
  refine ⟨by simp, ?_⟩
  exact c6_roundtrip [] [] [errFile, okFile] okFile (chars "hi") (by simp) rfl rfl rfl

/-! ## Claim C1: scoping of per-directory ignore files -/

mutual
/-- The matcher stack of `walkDir` collapses to its top: the traversal is
equivalent to the stack-free traversal in which each directory uses its own
local matcher when present (shadowing everything else) and otherwise the
matcher at the top of the incoming stack — so a local ignore file influences
only its own directory's file filtering and immediate-child pruning. -/
theorem walkDir_eq_local (cfg : WalkCfg) (parse : List String → Matcher) (stack : List Matcher)
    (rel : List String) (t : FSTree) :
    walkDir cfg parse stack rel t = walkLocalDir cfg parse stack.getLast? rel t := by
  match t with
  | FSTree.node files dirs =>
    rw [walkDir, walkLocalDir]
    by_cases hp : depthPruned cfg rel = true
    · simp [hp]
    · simp only [Bool.not_eq_true] at hp
      simp only [hp, Bool.false_eq_true, if_false]
      by_cases hg : (cfg.obeyGitignores && hasGitignoreFile files) = true
      · simp only [hg, if_true, List.getLast?_concat]
        rw [walkDirs_eq_local cfg parse stack _ rel dirs]
      · simp only [Bool.not_eq_true] at hg
        simp only [hg, Bool.false_eq_true, if_false]
        rw [walkDirs_eq_local cfg parse stack _ rel dirs]

/-- Forest version of `walkDir_eq_local`. -/
theorem walkDirs_eq_local (cfg : WalkCfg) (parse : List String → Matcher) (stack : List Matcher)
    (cur : Option Matcher) (rel : List String) (d : FSForest) :
    walkDirs cfg parse stack cur rel d = walkLocalDirs cfg parse stack.getLast? cur rel d := by
  match d with
  | FSForest.fnil => rw [walkDirs, walkLocalDirs]
  | FSForest.fcons nm sub rest =>
    rw [walkDirs, walkLocalDirs]
    rw [walkDir_eq_local cfg parse stack (rel ++ [nm]) sub]
    rw [walkDirs_eq_local cfg parse stack cur rel rest]
end

/-- Claim C1 counterexample: the tree `tIgnoreSub` holds an ignore file only
in subdirectory `B`, whose matcher matches the deeper file `B/C/x.log`
(inside `B`'s subtree); with `obey_gitignores` on, the claim requires that
file to be filtered out while `B`'s subtree is processed, yet `list_files`
returns it — the matcher is popped at the end of `B`'s own loop iteration,
before `os.walk` descends into `B/C`. -/
theorem c1_counterexample :
    parseLog ["B", ".gitignore"] ["B", "C", "x.log"] = true ∧
    list_files cfgObey parseLog none tIgnoreSub =
      Except.ok [["B", ".gitignore"], ["B", "C", "x.log"]] := by
  exact ⟨rfl, rfl⟩

/-- Claim C1, amended: with `obey_gitignores`, a directory's own ignore file
is pushed on entry and popped as soon as that directory's own entries have
been processed — before its subdirectories are walked — so it filters only
that directory's own files and the pruning of its immediate children
(shadowing the global matcher there), and it never affects siblings,
ancestors, or deeper descendants: `list_files` coincides with the stack-free
`list_files_local` in which each directory sees only its own local matcher or
the global one. -/
theorem c1_amended_local_scope (cfg : WalkCfg) (parse : List String → Matcher)
    (g : Option Matcher) (t : FSTree) :
    list_files cfg parse g t = list_files_local cfg parse g t := by
  unfold list_files list_files_local
  rw [walkDir_eq_local]
  cases g <;> rfl

/-! ## Claim C2: depth limiting -/

/-- Replace only the depth limit of a configuration. -/
def cfgWithDepth (cfg : WalkCfg) (md : Option Nat) : WalkCfg := { cfg with maxDepth := md }

/-- With no depth limit, nothing is pruned. -/
theorem depthPruned_withDepth_none (cfg : WalkCfg) (rel : List String) :
    depthPruned (cfgWithDepth cfg none) rel = false := rfl

/-- With limit `N`, a directory is pruned exactly when its depth reaches `N`. -/
theorem depthPruned_withDepth_some (cfg : WalkCfg) (N : Nat) (rel : List String) :
    depthPruned (cfgWithDepth cfg (some N)) rel = decide (N ≤ rel.length) := rfl

/-- File admission ignores the depth limit. -/
theorem admitFile_withDepth (cfg : WalkCfg) (md : Option Nat) (cur : Option Matcher)
    (rel : List String) (f : FileEnt) :
    admitFile (cfgWithDepth cfg md) cur rel f = admitFile cfg cur rel f := rfl

/-- The file loop ignores the depth limit. -/
theorem admitFiles_withDepth (cfg : WalkCfg) (md : Option Nat) (cur : Option Matcher)
    (rel : List String) (fs : List FileEnt) :
    admitFiles (cfgWithDepth cfg md) cur rel fs = admitFiles cfg cur rel fs := by
  induction fs with
  | nil => rfl
  | cons f fs ih =>
    rw [admitFiles, admitFiles, ih]
    rfl

/-- Directory filtering ignores the depth limit. -/
theorem dirKeep_withDepth (cfg : WalkCfg) (md : Option Nat) (cur : Option Matcher)
    (rel : List String) (d : String) :
    dirKeep (cfgWithDepth cfg md) cur rel d = dirKeep cfg cur rel d := rfl

/-- The obey flag is untouched by a depth change. -/
theorem obey_withDepth (cfg : WalkCfg) (md : Option Nat) :
    (cfgWithDepth cfg md).obeyGitignores = cfg.obeyGitignores := rfl

/-- Paths appended by the file loop are exactly one component deeper than the
directory hosting them. -/
theorem admitFiles_mem_length (cfg : WalkCfg) (cur : Option Matcher) (rel : List String) :
    ∀ (fs : List FileEnt) (ps : List (List String)),
      admitFiles cfg cur rel fs = Except.ok ps → ∀ p ∈ ps, p.length = rel.length + 1 := by
  intro fs
  induction fs with
  | nil =>
    intro ps h p hp
    rw [admitFiles] at h
    injection h with h'
    subst h'
    simp at hp
  | cons f fs ih =>
    intro ps h p hp
    rw [admitFiles] at h
    cases hA : admitFile cfg cur rel f with
    | error e => rw [hA] at h; cases h
    | ok b =>
      rw [hA] at h
      cases hR : admitFiles cfg cur rel fs with
      | error e => rw [hR] at h; cases h
      | ok rest =>
        rw [hR] at h
        injection h with h'
        subst h'
        cases b with
        | true =>
          rw [if_pos rfl] at hp
          rcases List.mem_cons.mp hp with hp | hp
          · subst hp
            simp
          · exact ih rest hR p hp
        | false =>
          rw [if_neg (by simp)] at hp
          exact ih rest hR p hp

mutual
/-- Every path returned from the walk of a subtree lies strictly deeper than
the subtree's root. -/
theorem walkDir_mem_length (cfg : WalkCfg) (parse : List String → Matcher) (t : FSTree) :
    ∀ (stack : List Matcher) (rel : List String) (l : List (List String)),
      walkDir cfg parse stack rel t = Except.ok l → ∀ p ∈ l, rel.length < p.length := by
  match t with
  | FSTree.node files dirs =>
    intro stack rel l h p hp
    simp only [walkDir] at h
    by_cases hd : depthPruned cfg rel = true
    · rw [if_pos hd] at h
      injection h with h'
      subst h'
      simp at hp
    · rw [if_neg hd] at h
      cases hA : admitFiles cfg
          ((if cfg.obeyGitignores && hasGitignoreFile files then
            stack ++ [parse (rel ++ [".gitignore"])] else stack).getLast?) rel files with
      | error e => rw [hA] at h; cases h
      | ok mine =>
        rw [hA] at h
        cases hW : walkDirs cfg parse stack
            ((if cfg.obeyGitignores && hasGitignoreFile files then
              stack ++ [parse (rel ++ [".gitignore"])] else stack).getLast?) rel dirs with
        | error e => rw [hW] at h; cases h
        | ok subs =>
          rw [hW] at h
          injection h with h'
          subst h'
          rcases List.mem_append.mp hp with hp | hp
          · rw [admitFiles_mem_length cfg _ rel files mine hA p hp]
            omega
          · exact walkDirs_mem_length cfg parse dirs stack _ rel subs hW p hp

/-- Forest version of `walkDir_mem_length`. -/
theorem walkDirs_mem_length (cfg : WalkCfg) (parse : List String → Matcher) (d : FSForest) :
    ∀ (stack : List Matcher) (cur : Option Matcher) (rel : List String) (l : List (List String)),
      walkDirs cfg parse stack cur rel d = Except.ok l → ∀ p ∈ l, rel.length < p.length := by
  match d with
  | FSForest.fnil =>
    intro stack cur rel l h p hp
    rw [walkDirs] at h
    injection h with h'
    subst h'
    simp at hp
  | FSForest.fcons nm sub rest =>
    intro stack cur rel l h p hp
    rw [walkDirs] at h
    by_cases hk : dirKeep cfg cur rel nm = true
    · rw [if_pos hk] at h
      cases hA : walkDir cfg parse stack (rel ++ [nm]) sub with
      | error e => rw [hA] at h; cases h
      | ok a =>
        rw [hA] at h
        cases hB : walkDirs cfg parse stack cur rel rest with
        | error e => rw [hB] at h; cases h
        | ok b =>
          rw [hB] at h
          injection h with h'
          subst h'
          rcases List.mem_append.mp hp with hp | hp
          · have := walkDir_mem_length cfg parse sub stack (rel ++ [nm]) a hA p hp
            rw [List.length_append] at this
            simp at this
            omega
          · exact walkDirs_mem_length cfg parse rest stack cur rel b hB p hp
    · rw [if_neg hk] at h
      cases hB : walkDirs cfg parse stack cur rel rest with
      | error e => rw [hB] at h; cases h
      | ok b =>
        rw [hB] at h
        injection h with h'
        subst h'
        exact walkDirs_mem_length cfg parse rest stack cur rel b hB p hp
end

mutual
/-- Depth limiting filters the unlimited walk: restricting the same
configuration to depth `N` returns exactly those paths of the unlimited walk
whose length stays within `N`. -/
theorem walkDir_depth_filter (cfg : WalkCfg) (parse : List String → Matcher) (N : Nat)
    (t : FSTree) :
    ∀ (stack : List Matcher) (rel : List String) (l : List (List String)),
      walkDir (cfgWithDepth cfg none) parse stack rel t = Except.ok l →
      walkDir (cfgWithDepth cfg (some N)) parse stack rel t =
        Except.ok (l.filter (fun p => decide (p.length ≤ N))) := by
  match t with
  | FSTree.node files dirs =>
    intro stack rel l h
    have hlen := walkDir_mem_length (cfgWithDepth cfg none) parse (FSTree.node files dirs)
      stack rel l h
    simp only [walkDir, depthPruned_withDepth_none, Bool.false_eq_true, if_false] at h
    simp only [walkDir, depthPruned_withDepth_some]
    by_cases hN : N ≤ rel.length
    · rw [if_pos (by simpa using hN)]
      have hfe : l.filter (fun p => decide (p.length ≤ N)) = [] := by
        rw [List.filter_eq_nil_iff]
        intro p hp
        have := hlen p hp
        simp only [decide_eq_true_eq]
        omega
      rw [hfe]
    · rw [if_neg (by simpa using hN)]
      simp only [obey_withDepth, admitFiles_withDepth] at h ⊢
      cases hA : admitFiles cfg ((if cfg.obeyGitignores && hasGitignoreFile files then
          stack ++ [parse (rel ++ [".gitignore"])] else stack).getLast?) rel files with
      | error e => rw [hA] at h; cases h
      | ok mine =>
        rw [hA] at h
        cases hW : walkDirs (cfgWithDepth cfg none) parse stack
            ((if cfg.obeyGitignores && hasGitignoreFile files then
              stack ++ [parse (rel ++ [".gitignore"])] else stack).getLast?) rel dirs with
        | error e => rw [hW] at h; cases h
        | ok subs =>
          rw [hW] at h
          injection h with h'
          subst h'
          rw [walkDirs_depth_filter cfg parse N dirs stack _ rel subs hW]
          have hmine : mine.filter (fun p => decide (p.length ≤ N)) = mine := by
            rw [List.filter_eq_self]
            intro p hp
            have := admitFiles_mem_length cfg _ rel files mine hA p hp
            simp only [decide_eq_true_eq]
            omega
          rw [List.filter_append, hmine]

/-- Forest version of `walkDir_depth_filter`. -/
theorem walkDirs_depth_filter (cfg : WalkCfg) (parse : List String → Matcher) (N : Nat)
    (d : FSForest) :
    ∀ (stack : List Matcher) (cur : Option Matcher) (rel : List String) (l : List (List String)),
      walkDirs (cfgWithDepth cfg none) parse stack cur rel d = Except.ok l →
      walkDirs (cfgWithDepth cfg (some N)) parse stack cur rel d =
        Except.ok (l.filter (fun p => decide (p.length ≤ N))) := by
  match d with
  | FSForest.fnil =>
    intro stack cur rel l h
    rw [walkDirs] at h
    injection h with h'
    subst h'
    rw [walkDirs]
    rfl
  | FSForest.fcons nm sub rest =>
    intro stack cur rel l h
    rw [walkDirs] at h
    rw [walkDirs]
    simp only [dirKeep_withDepth] at h ⊢
    by_cases hk : dirKeep cfg cur rel nm = true
    · rw [if_pos hk] at h ⊢
      cases hA : walkDir (cfgWithDepth cfg none) parse stack (rel ++ [nm]) sub with
      | error e => rw [hA] at h; cases h
      | ok a =>
        rw [hA] at h
        cases hB : walkDirs (cfgWithDepth cfg none) parse stack cur rel rest with
        | error e => rw [hB] at h; cases h
        | ok b =>
          rw [hB] at h
          injection h with h'
          subst h'
          rw [walkDir_depth_filter cfg parse N sub stack (rel ++ [nm]) a hA]
          rw [walkDirs_depth_filter cfg parse N rest stack cur rel b hB]
          rw [List.filter_append]
    · rw [if_neg hk] at h ⊢
      cases hB : walkDirs (cfgWithDepth cfg none) parse stack cur rel rest with
      | error e => rw [hB] at h; cases h
      | ok b =>
        rw [hB] at h
        injection h with h'
        subst h'
        rw [walkDirs_depth_filter cfg parse N rest stack cur rel b hB]
        simp
end

/-- Claim C2: with a depth limit `N`, `list_files` returns exactly the files
of the otherwise-identical unlimited run whose containing directory lies at
depth below `N` (a path of length `k` sits in a directory of depth `k - 1`):
no file from a directory at depth at least `N` is ever returned, and every
file at smaller depth passing all the other configured filters is kept, in
order. -/
theorem c2_depth_limit (cfg : WalkCfg) (parse : List String → Matcher)
    (g : Option Matcher) (t : FSTree) (N : Nat) (l : List (List String))
    (h : list_files { cfg with maxDepth := none } parse g t = Except.ok l) :
    list_files { cfg with maxDepth := some N } parse g t =
      Except.ok (l.filter (fun p => decide (p.length - 1 < N))) := by
  have main : ∀ stack : List Matcher,
      walkDir (cfgWithDepth cfg none) parse stack [] t = Except.ok l →
      walkDir (cfgWithDepth cfg (some N)) parse stack [] t =
        Except.ok (l.filter (fun p => decide (p.length - 1 < N))) := by
    intro stack hh
    have hlen := walkDir_mem_length (cfgWithDepth cfg none) parse t stack [] l hh
    have h2 := walkDir_depth_filter cfg parse N t stack [] l hh
    have hco : l.filter (fun p => decide (p.length ≤ N)) =
        l.filter (fun p => decide (p.length - 1 < N)) := by
      apply List.filter_congr
      intro p hp
      have := hlen p hp
      simp only [decide_eq_decide]
      omega
    rw [hco] at h2
    exact h2
  cases g with
  | none => exact main [] h
  | some m => exact main [m] h

/-- Witness for C2 on the three-level tree `tDepth` with limit 2. -/
theorem c2_depth_limit_witness :
    (list_files { cfgNoFilters with maxDepth := none } parseFalse none tDepth =
      Except.ok [["r.txt"], ["d", "x.txt"], ["d", "e", "y.txt"]]) ∧
    list_files { cfgNoFilters with maxDepth := some 2 } parseFalse none tDepth =
      Except.ok ([["r.txt"], ["d", "x.txt"], ["d", "e", "y.txt"]].filter
        (fun p => decide (p.length - 1 < 2))) := by
  exact ⟨rfl, c2_depth_limit cfgNoFilters parseFalse none tDepth 2 _ rfl⟩

/-! ## Claim C9: blank-line collapsing -/

/-- With a negative threshold every line is dropped. -/
theorem limitAux_neg (m : Int) (hm : m < 0) :
    ∀ (ls : List (List Char)) (cnt : Nat), limitAux m cnt ls = [] := by
  intro ls
  induction ls with
  | nil => intro cnt; rfl
  | cons l ls ih =>
    intro cnt
    simp only [limitAux]
    by_cases hb : isBlankLine l = true
    · simp only [hb, if_true]
      rw [if_neg (by push_cast; omega)]
      exact ih (cnt + 1)
    · simp only [hb, Bool.false_eq_true, if_false]
      rw [if_neg (by push_cast; omega)]
      exact ih 0

/-- Filtering a second time with a starting count at most the first one's
changes nothing. -/
theorem limitAux_idem (m : Int) (hm : 0 ≤ m) :
    ∀ (ls : List (List Char)) (cnt1 cnt2 : Nat), cnt2 ≤ cnt1 →
      limitAux m cnt2 (limitAux m cnt1 ls) = limitAux m cnt1 ls := by
  intro ls
  induction ls with
  | nil => intro cnt1 cnt2 _; rfl
  | cons l ls ih =>
    intro cnt1 cnt2 hle
    simp only [limitAux]
    by_cases hb : isBlankLine l = true
    · simp only [hb, if_true]
      by_cases hc : ((cnt1 + 1 : Nat) : Int) ≤ m
      · rw [if_pos hc]
        simp only [limitAux, hb, if_true]
        rw [if_pos (by push_cast at hc ⊢; omega)]
        rw [ih (cnt1 + 1) (cnt2 + 1) (by omega)]
      · rw [if_neg hc]
        exact ih (cnt1 + 1) cnt2 (by omega)
    · simp only [hb, Bool.false_eq_true, if_false]
      rw [if_pos (by push_cast; omega)]
      simp only [limitAux, hb, Bool.false_eq_true, if_false]
      rw [if_pos (by push_cast; omega)]
      rw [ih 0 0 le_rfl]

/-- The kept lines form a sublist of the input lines. -/
theorem limitAux_sublist (m : Int) :
    ∀ (ls : List (List Char)) (cnt : Nat), List.Sublist (limitAux m cnt ls) ls := by
  intro ls
  induction ls with
  | nil => intro cnt; exact List.Sublist.refl _
  | cons l ls ih =>
    intro cnt
    simp only [limitAux]
    split <;> split
    · exact List.Sublist.cons₂ l (ih _)
    · exact List.Sublist.cons l (ih _)
    · exact List.Sublist.cons₂ l (ih _)
    · exact List.Sublist.cons l (ih _)

/-- A run ending in a non-blank line keeps a non-blank last line. -/
theorem limitAux_getLast_nonblank (m : Int) (hm : 0 ≤ m) :
    ∀ (ls : List (List Char)) (cnt : Nat) (x : List Char),
      ls.getLast? = some x → isBlankLine x = false →
      ∃ y, (limitAux m cnt ls).getLast? = some y ∧ isBlankLine y = false := by
  intro ls
  induction ls with
  | nil => intro cnt x hx _; cases hx
  | cons l rest ih =>
    intro cnt x hx hbx
    cases rest with
    | nil =>
      have hxl : x = l := by
        simp only [List.getLast?_singleton] at hx
        injection hx with hx
        exact hx.symm
      subst hxl
      simp only [limitAux, hbx, Bool.false_eq_true, if_false]
      rw [if_pos (by push_cast; omega)]
      exact ⟨x, rfl, hbx⟩
    | cons l2 rest2 =>
      have hx2 : (l2 :: rest2).getLast? = some x := by
        rw [← List.getLast?_cons_cons]
        exact hx
      have step : ∀ c' : Nat,
          ∃ y, (limitAux m c' (l2 :: rest2)).getLast? = some y ∧ isBlankLine y = false :=
        fun c' => ih c' x hx2 hbx
      have step2 : ∀ c' : Nat,
          ∃ y, (l :: limitAux m c' (l2 :: rest2)).getLast? = some y ∧ isBlankLine y = false := by
        intro c'
        obtain ⟨y, hy1, hy2⟩ := step c'
        refine ⟨y, ?_, hy2⟩
        cases hT : limitAux m c' (l2 :: rest2) with
        | nil => rw [hT] at hy1; cases hy1
        | cons t ts =>
          rw [hT] at hy1
          rw [List.getLast?_cons_cons]
          exact hy1
      rw [limitAux]
      split <;> split
      · exact step2 _
      · exact step _
      · exact step2 _
      · exact step _

/-- Lines produced by the splitter contain no line-boundary characters. -/
theorem splitlinesGo_lines_nb :
    ∀ (acc cs : List Char), (∀ a ∈ acc, isLineBoundary a = false) →
      ∀ l ∈ splitlinesGo acc cs, ∀ a ∈ l, isLineBoundary a = false := by
  intro acc cs
  induction acc, cs using splitlinesGo.induct with
  | case1 acc hacc =>
    intro hnb l hl
    simp only [splitlinesGo, hacc, if_true] at hl
    simp at hl
  | case2 acc hacc =>
    intro hnb l hl
    simp only [splitlinesGo] at hl
    rw [if_neg hacc] at hl
    simp only [List.mem_singleton] at hl
    subst hl
    intro a ha
    exact hnb a (List.mem_reverse.mp ha)
  | case3 acc rest ih =>
    intro hnb l hl
    simp only [splitlinesGo] at hl
    rcases List.mem_cons.mp hl with h | h
    · subst h
      intro a ha
      exact hnb a (List.mem_reverse.mp ha)
    · exact ih (by simp) l h
  | case4 acc rest hne ih =>
    intro hnb l hl
    rw [splitlinesGo.eq_3 acc rest hne] at hl
    rcases List.mem_cons.mp hl with h | h
    · subst h
      intro a ha
      exact hnb a (List.mem_reverse.mp ha)
    · exact ih (by simp) l h
  | case5 acc c rest h1 h2 h3 ih =>
    intro hnb l hl
    rw [splitlinesGo.eq_4 acc c rest h1 h2, if_pos h3] at hl
    rcases List.mem_cons.mp hl with h | h
    · subst h
      intro a ha
      exact hnb a (List.mem_reverse.mp ha)
    · exact ih (by simp) l h
  | case6 acc c rest h1 h2 h3 ih =>
    intro hnb l hl
    rw [splitlinesGo.eq_4 acc c rest h1 h2, if_neg h3] at hl
    refine ih ?_ l hl
    intro a ha
    rcases List.mem_cons.mp ha with h | h
    · subst h
      simp only [Bool.not_eq_true] at h3
      exact h3
    · exact hnb a h

/-- On boundary-free input the splitter yields the single accumulated line
(or nothing when it is empty). -/
theorem splitlinesGo_all_nb :
    ∀ (cs acc : List Char), (∀ a ∈ cs, isLineBoundary a = false) →
      splitlinesGo acc cs =
        if (acc.reverse ++ cs).isEmpty then [] else [acc.reverse ++ cs] := by
  intro cs
  induction cs with
  | nil =>
    intro acc _
    rw [splitlinesGo.eq_1]
    cases acc with
    | nil => rfl
    | cons a t => simp
  | cons c rest ih =>
    intro acc hnb
    have hc := hnb c (by simp)
    have hcr : c = '\r' → False := by
      intro he
      subst he
      simp [isLineBoundary] at hc
    have h1 : ∀ (rest_1 : List Char), c = '\r' → rest = '\n' :: rest_1 → False := by
      intro r1 he _
      exact hcr he
    rw [splitlinesGo.eq_4 acc c rest h1 hcr]
    rw [if_neg (by simp [hc])]
    rw [ih (c :: acc) (fun a ha => hnb a (by simp [ha]))]
    simp

/-- Splitting a boundary-free prefix followed by a newline emits that prefix
as one line. -/
theorem splitlinesGo_append_nl :
    ∀ (xs acc rest : List Char), (∀ a ∈ xs, isLineBoundary a = false) →
      splitlinesGo acc (xs ++ '\n' :: rest) = (acc.reverse ++ xs) :: splitlinesGo [] rest := by
  intro xs
  induction xs with
  | nil =>
    intro acc rest _
    have hcr : ('\n' : Char) = '\r' → False := by decide
    have h1 : ∀ (rest_1 : List Char), ('\n' : Char) = '\r' → rest = '\n' :: rest_1 → False :=
      fun _ he _ => hcr he
    rw [List.nil_append, splitlinesGo.eq_4 acc '\n' rest h1 hcr, if_pos (by decide)]
    simp
  | cons x xs ih =>
    intro acc rest hnb
    have hx := hnb x (by simp)
    have hcr : x = '\r' → False := by
      intro he
      subst he
      simp [isLineBoundary] at hx
    have h1 : ∀ (rest_1 : List Char),
        x = '\r' → (xs ++ '\n' :: rest) = '\n' :: rest_1 → False :=
      fun _ he _ => hcr he
    rw [List.cons_append, splitlinesGo.eq_4 acc x _ h1 hcr, if_neg (by simp [hx])]
    rw [ih (x :: acc) rest (fun a ha => hnb a (by simp [ha]))]
    simp

/-- Splitting the newline-join of boundary-free lines recovers the lines,
provided the last line is not empty. -/
theorem pySplitlines_intercalate :
    ∀ (ls : List (List Char)),
      (∀ l ∈ ls, ∀ a ∈ l, isLineBoundary a = false) →
      ls.getLast? ≠ some [] →
      pySplitlines (List.intercalate ['\n'] ls) = ls := by
  intro ls
  induction ls with
  | nil => intro _ _; rfl
  | cons x rest ih =>
    intro hnb hlast
    cases rest with
    | nil =>
      have hx : x ≠ [] := by
        intro hc
        apply hlast
        rw [hc]
        rfl
      have h1 : List.intercalate ['\n'] [x] = x := by
        rw [intercalate_cons_eq]
        simp
      rw [h1, pySplitlines, splitlinesGo_all_nb x [] (hnb x (by simp))]
      rw [if_neg (by simpa using hx)]
      simp
    | cons y rest2 =>
      have h2 : List.intercalate ['\n'] (x :: y :: rest2)
          = x ++ '\n' :: List.intercalate ['\n'] (y :: rest2) := by
        rw [intercalate_cons_eq]
        simp
      rw [List.getLast?_cons_cons] at hlast
      rw [h2, pySplitlines, splitlinesGo_append_nl x [] _ (hnb x (by simp))]
      have h3 := ih (fun l hl => hnb l (by simp [hl])) hlast
      rw [pySplitlines] at h3
      rw [h3]
      simp

/-- Claim C9 counterexample: with threshold 1 on content `a\n\n`, one
application keeps the trailing empty line and yields `a\n`; a second
application drops it again and yields `a` — blank-line collapsing is not
idempotent. -/
theorem c9_counterexample :
    limit_consecutive_empty_lines (chars "a\n\n") (some 1) = chars "a\n" ∧
    limit_consecutive_empty_lines
      (limit_consecutive_empty_lines (chars "a\n\n") (some 1)) (some 1) = chars "a" ∧
    limit_consecutive_empty_lines
        (limit_consecutive_empty_lines (chars "a\n\n") (some 1)) (some 1)
      ≠ limit_consecutive_empty_lines (chars "a\n\n") (some 1) := by
  refine ⟨rfl, rfl, by decide⟩

/-- Claim C9, amended: `limit_consecutive_empty_lines` is idempotent on every
content whose final split line is not whitespace-only (in particular on any
content not ending in a line terminator or trailing blank line); in general a
second application can differ only by dropping a kept trailing empty line, as
the counterexample shows. -/
theorem c9_idempotent_amended (content : List Char) (m : Int)
    (hlast : ∀ x, (pySplitlines content).getLast? = some x → isBlankLine x = false) :
    limit_consecutive_empty_lines (limit_consecutive_empty_lines content (some m)) (some m)
      = limit_consecutive_empty_lines content (some m) := by
  by_cases hm : m < 0
  · have h1 : limit_consecutive_empty_lines content (some m) = [] := by
      rw [limit_consecutive_empty_lines, limitAux_neg m hm]
      rfl
    rw [h1]
    rw [limit_consecutive_empty_lines, limitAux_neg m hm]
    rfl
  · push_neg at hm
    rw [limit_consecutive_empty_lines, limit_consecutive_empty_lines]
    cases hsl : (limitAux m 0 (pySplitlines content)).getLast? with
    | none =>
      have hnil : limitAux m 0 (pySplitlines content) = [] :=
        List.getLast?_eq_none_iff.mp hsl
      rw [hnil]
      rfl
    | some y =>
      obtain ⟨x, hx⟩ : ∃ x, (pySplitlines content).getLast? = some x := by
        cases hq : (pySplitlines content).getLast? with
        | none =>
          exfalso
          rw [List.getLast?_eq_none_iff.mp hq] at hsl
          cases hsl
        | some x => exact ⟨x, rfl⟩
      have hbx := hlast x hx
      obtain ⟨y', hy1, hy2⟩ := limitAux_getLast_nonblank m hm (pySplitlines content) 0 x hx hbx
      rw [hsl] at hy1
      injection hy1 with hy1
      subst hy1
      have hyne : y ≠ [] := by
        intro hc
        rw [hc] at hy2
        exact absurd hy2 (by decide)
      have hnbl : ∀ l ∈ limitAux m 0 (pySplitlines content),
          ∀ a ∈ l, isLineBoundary a = false := by
        intro l hl
        have hsub := limitAux_sublist m (pySplitlines content) 0
        exact splitlinesGo_lines_nb [] content (by simp) l (hsub.subset hl)
      have hsp : pySplitlines (List.intercalate ['\n'] (limitAux m 0 (pySplitlines content)))
          = limitAux m 0 (pySplitlines content) := by
        apply pySplitlines_intercalate _ hnbl
        rw [hsl]
        intro hc
        injection hc with hc
        exact hyne hc
      rw [hsp]
      rw [limitAux_idem m hm (pySplitlines content) 0 0 le_rfl]

/-- Witness for C9 (amended) at content `a\n\nb` and threshold 0. -/
theorem c9_idempotent_amended_witness :
    (∀ x, (pySplitlines (chars "a\n\nb")).getLast? = some x → isBlankLine x = false) ∧
    limit_consecutive_empty_lines
        (limit_consecutive_empty_lines (chars "a\n\nb") (some 0)) (some 0)
      = limit_consecutive_empty_lines (chars "a\n\nb") (some 0) := by
  have hh : ∀ x, (pySplitlines (chars "a\n\nb")).getLast? = some x → isBlankLine x = false := by
    intro x hx
    rw [show (pySplitlines (chars "a\n\nb")).getLast? = some (chars "b") from rfl] at hx
    injection hx with hx
    subst hx
    rfl
  exact ⟨hh, c9_idempotent_amended (chars "a\n\nb") 0 hh⟩

/-! ## Claim C10: line-structure rewriting by the pipeline -/

/-- Splitting at a leading newline emits the accumulated line. -/
theorem splitlinesGo_nl (acc rest : List Char) :
    splitlinesGo acc ('\n' :: rest) = acc.reverse :: splitlinesGo [] rest := by
  rw [splitlinesGo.eq_4 acc '\n' rest (fun _ he _ => absurd he (by decide))
    (fun he => absurd he (by decide)), if_pos (by decide)]

/-- The splitter never returns an empty list of lines on nonempty input. -/
theorem splitlinesGo_ne_nil :
    ∀ (acc cs : List Char), acc ≠ [] ∨ cs ≠ [] → splitlinesGo acc cs ≠ [] := by
  intro acc cs
  induction acc, cs using splitlinesGo.induct with
  | case1 acc hacc =>
    intro hor
    rcases hor with hne | hne
    · exact absurd (List.isEmpty_iff.mp hacc) hne
    · exact absurd rfl hne
  | case2 acc hacc =>
    intro _
    rw [splitlinesGo.eq_1, if_neg hacc]
    simp
  | case3 acc rest ih =>
    intro _
    rw [splitlinesGo.eq_2]
    simp
  | case4 acc rest hne ih =>
    intro _
    rw [splitlinesGo.eq_3 acc rest hne]
    simp
  | case5 acc c rest h1 h2 h3 ih =>
    intro _
    rw [splitlinesGo.eq_4 acc c rest h1 h2, if_pos h3]
    simp
  | case6 acc c rest h1 h2 h3 ih =>
    intro _
    rw [splitlinesGo.eq_4 acc c rest h1 h2, if_neg h3]
    exact ih (Or.inl (by simp))

/-- Newline normalisation does not change how content splits into lines, as
long as the only boundary characters present are LF and CR. -/
theorem splitlinesGo_normalize :
    ∀ (c : List Char), (∀ a ∈ c, isLineBoundary a = true → a = '\n' ∨ a = '\r') →
      ∀ acc, splitlinesGo acc (normalizeCRLF c) = splitlinesGo acc c := by
  intro c
  induction c using normalizeCRLF.induct with
  | case1 => intro _ _; rfl
  | case2 rest ih =>
    intro hb acc
    rw [normalizeCRLF, splitlinesGo_nl, splitlinesGo.eq_2]
    rw [ih (fun a ha hba => hb a (by simp [ha]) hba) []]
  | case3 rest hne ih =>
    intro hb acc
    rw [normalizeCRLF.eq_3 rest hne, splitlinesGo_nl, splitlinesGo.eq_3 acc rest hne]
    rw [ih (fun a ha hba => hb a (by simp [ha]) hba) []]
  | case4 c rest h1 h2 ih =>
    intro hb acc
    rw [normalizeCRLF.eq_4 c rest h1 h2]
    by_cases hbc : isLineBoundary c = true
    · have hcn : c = '\n' := by
        rcases hb c (by simp) hbc with h | h
        · exact h
        · exact absurd h (fun he => h2 he)
      subst hcn
      rw [splitlinesGo_nl, splitlinesGo_nl]
      rw [ih (fun a ha hba => hb a (by simp [ha]) hba) []]
    · rw [splitlinesGo.eq_4 acc c (normalizeCRLF rest) (fun _ he _ => h2 he) h2, if_neg hbc]
      rw [splitlinesGo.eq_4 acc c rest h1 h2, if_neg hbc]
      exact ih (fun a ha hba => hb a (by simp [ha]) hba) (c :: acc)

/-- Normalised content has no boundary character other than LF, provided the
input had only LF and CR. -/
theorem normalizeCRLF_only_nl :
    ∀ (c : List Char), (∀ a ∈ c, isLineBoundary a = true → a = '\n' ∨ a = '\r') →
      ∀ a ∈ normalizeCRLF c, isLineBoundary a = true → a = '\n' := by
  intro c
  induction c using normalizeCRLF.induct with
  | case1 => intro _ a ha; cases ha
  | case2 rest ih =>
    intro hb a ha hba
    rw [normalizeCRLF] at ha
    rcases List.mem_cons.mp ha with h | h
    · exact h
    · exact ih (fun x hx hbx => hb x (by simp [hx]) hbx) a h hba
  | case3 rest hne ih =>
    intro hb a ha hba
    rw [normalizeCRLF.eq_3 rest hne] at ha
    rcases List.mem_cons.mp ha with h | h
    · exact h
    · exact ih (fun x hx hbx => hb x (by simp [hx]) hbx) a h hba
  | case4 c rest h1 h2 ih =>
    intro hb a ha hba
    rw [normalizeCRLF.eq_4 c rest h1 h2] at ha
    rcases List.mem_cons.mp ha with h | h
    · subst h
      rcases hb a (by simp) hba with h | h
      · exact h
      · exact absurd h (fun he => h2 he)
    · exact ih (fun x hx hbx => hb x (by simp [hx]) hbx) a h hba

/-- Dropping one final newline commutes with a cons when the tail is
nonempty. -/
theorem dropTrailingNewline_cons (c : Char) (rest : List Char) (h : rest ≠ []) :
    dropTrailingNewline (c :: rest) = c :: dropTrailingNewline rest := by
  cases rest with
  | nil => exact absurd rfl h
  | cons r rs =>
    rw [dropTrailingNewline, dropTrailingNewline, List.getLast?_cons_cons]
    by_cases hl : (r :: rs).getLast? = some '\n'
    · rw [if_pos hl, if_pos hl]
      rfl
    · rw [if_neg hl, if_neg hl]

/-- Joining the lines of LF-only content with newlines removes exactly one
final trailing newline. -/
theorem intercalate_splitlinesGo_dropTrailing :
    ∀ (cs : List Char), (∀ a ∈ cs, isLineBoundary a = true → a = '\n') →
      ∀ acc, List.intercalate ['\n'] (splitlinesGo acc cs)
        = acc.reverse ++ dropTrailingNewline cs := by
  intro cs
  induction cs with
  | nil =>
    intro _ acc
    rw [splitlinesGo.eq_1]
    cases acc with
    | nil => rfl
    | cons a t =>
      rw [if_neg (by simp)]
      rw [intercalate_cons_eq]
      simp [dropTrailingNewline]
  | cons c rest ih =>
    intro hb acc
    by_cases hbc : isLineBoundary c = true
    · have hcn : c = '\n' := hb c (by simp) hbc
      subst hcn
      rw [splitlinesGo_nl]
      cases rest with
      | nil =>
        rw [intercalate_cons_eq]
        rw [show splitlinesGo [] ([] : List Char) = [] from rfl]
        simp [dropTrailingNewline]
      | cons r rs =>
        rw [intercalate_cons_eq]
        rw [if_neg (by
          simp only [List.isEmpty_eq_true]
          exact splitlinesGo_ne_nil [] (r :: rs) (Or.inr (by simp)))]
        rw [ih (fun a ha hba => hb a (by simp [ha]) hba) []]
        rw [dropTrailingNewline_cons '\n' (r :: rs) (by simp)]
        simp
    · have hcr : c = '\r' → False := by
        intro he
        subst he
        simp [isLineBoundary] at hbc
      rw [splitlinesGo.eq_4 acc c rest (fun _ he _ => hcr he) hcr, if_neg hbc]
      rw [ih (fun a ha hba => hb a (by simp [ha]) hba) (c :: acc)]
      cases rest with
      | nil =>
        have hcn : c ≠ '\n' := by
          intro he
          subst he
          simp [isLineBoundary] at hbc
        rw [show dropTrailingNewline [] = [] from rfl]
        rw [show dropTrailingNewline [c] = [c] from by
          rw [dropTrailingNewline]
          rw [if_neg (by simpa using hcn)]]
        simp
      | cons r rs =>
        rw [dropTrailingNewline_cons c (r :: rs) (by simp)]
        simp

/-- Splitting then re-joining with LF equals CR/CRLF normalisation followed
by removal of one final newline. -/
theorem splitlines_join_normalize (c : List Char)
    (hb : ∀ a ∈ c, isLineBoundary a = true → a = '\n' ∨ a = '\r') :
    List.intercalate ['\n'] (pySplitlines c) = dropTrailingNewline (normalizeCRLF c) := by
  rw [pySplitlines, ← splitlinesGo_normalize c hb []]
  rw [intercalate_splitlinesGo_dropTrailing (normalizeCRLF c) (normalizeCRLF_only_nl c hb) []]
  rfl

/-- Claim C10: when line truncation or blank-line collapsing is configured,
`read_and_fence` rewrites the whole content's line structure even when no
line is actually truncated or suppressed — the content is split into lines
and re-joined with LF, so every CRLF or lone CR terminator becomes LF and one
final trailing newline is removed (stated for content whose line boundaries
are only LF and CR, the terminators the claim speaks about). -/
theorem c10_line_normalization (rel nm c : List Char) (n : Nat) (m : Int)
    (hn : 0 < n)
    (hb : ∀ a ∈ c, isLineBoundary a = true → a = '\n' ∨ a = '\r')
    (hlines : ∀ l ∈ pySplitlines c, l.length ≤ n)
    (hnosup : limitAux m 0 (pySplitlines c) = pySplitlines c) :
    read_and_fence ⟨[], [], some n, none, false, none⟩ ⟨rel, nm, Except.ok c⟩
      = chars "**" ++ rel ++ chars "**\n```" ++ fileExt nm ++ chars "\n"
        ++ dropTrailingNewline (normalizeCRLF c) ++ chars "\n```\n" ∧
    read_and_fence ⟨[], [], none, none, false, some m⟩ ⟨rel, nm, Except.ok c⟩
      = chars "**" ++ rel ++ chars "**\n```" ++ fileExt nm ++ chars "\n"
        ++ dropTrailingNewline (normalizeCRLF c) ++ chars "\n```\n" := by
  have hmap : (pySplitlines c).map (fun l => truncate_line l n) = pySplitlines c := by
    rw [List.map_congr_left (fun l hl => by
      rw [truncate_line, if_pos (hlines l hl)])]
    exact List.map_id _
  have hjoin := splitlines_join_normalize c hb
  constructor
  · rw [read_and_fence]
    rw [if_neg (by simp)]
    show chars "**" ++ rel ++ chars "**\n```" ++ fileExt nm ++ chars "\n"
        ++ (if n = 0 then c else
          List.intercalate ['\n'] ((pySplitlines c).map (fun l => truncate_line l n)))
        ++ chars "\n```\n" = _
    rw [if_neg (by omega), hmap, hjoin]
  · rw [read_and_fence]
    rw [if_neg (by simp)]
    show chars "**" ++ rel ++ chars "**\n```" ++ fileExt nm ++ chars "\n"
        ++ (List.intercalate ['\n'] (limitAux m 0 (pySplitlines c)))
        ++ chars "\n```\n" = _
    rw [hnosup, hjoin]

/-- Witness for C10 at content `ab\r\ncd\r` with thresholds 5 and 1. -/
theorem c10_line_normalization_witness :
    read_and_fence ⟨[], [], some 5, none, false, none⟩
        ⟨chars "f.txt", chars "f.txt", Except.ok (chars "ab\r\ncd\r")⟩
      = chars "**" ++ chars "f.txt" ++ chars "**\n```" ++ fileExt (chars "f.txt")
        ++ chars "\n" ++ dropTrailingNewline (normalizeCRLF (chars "ab\r\ncd\r"))
        ++ chars "\n```\n" ∧
    dropTrailingNewline (normalizeCRLF (chars "ab\r\ncd\r")) = chars "ab\ncd" := by
  refine ⟨(c10_line_normalization (chars "f.txt") (chars "f.txt") (chars "ab\r\ncd\r") 5 1
    (by decide) (by decide) (by decide) (by decide)).1, by decide⟩
